import Mathlib

/-!
Shallow embedding of `pkg/bigint/bigint.go` (package `bigint`).

Text is modelled as `List Char`; `uint32` limbs are modelled as `Nat`
with an explicit `% 2 ^ 32` at every operation where Go's `uint32`
arithmetic can wrap.  The helper package `teladoc/pkg/utils`
(`ChunkString`, `StringToUint32`, `CountDigits`) is not part of the
sources; those three helpers are modelled from the spec, as marked on
their doc comments.  Everything else is translated directly from
`bigint.go`.
-/

/-- The two error values of the package: `ErrInvalidIntegerNumber` and
`ErrConvertingChunkToInteger`. -/
inductive BigIntError where
  | errInvalidIntegerNumber : BigIntError
  | errConvertingChunkToInteger : BigIntError
deriving DecidableEq, Repr

/-- The `BigInt` struct: `magnitude []uint32`, `length int`, `chukSize int`.
Limbs are `Nat`s that are kept below `2 ^ 32` by explicit reductions at
each arithmetic step. -/
structure BigInt where
  magnitude : List Nat
  length : Nat
  chukSize : Nat
deriving DecidableEq, Repr

/-- Semantics of `regexp.MatchString("^[0-9]+$", value)`: the string is
non-empty and every character is an ASCII decimal digit.  (For the
constant pattern the `err` result of `MatchString` is always `nil`.) -/
def integerNumberMatch (s : List Char) : Bool :=
  !s.isEmpty && s.all Char.isDigit

/-- Fuel-driven worker for `chunksOf`: repeatedly peel `k` characters off
the front.  The fuel is always instantiated with the length of the list,
which suffices because each step consumes at least one character. -/
def chunksOfFuel (k : Nat) : Nat → List Char → List (List Char)
  | 0, _ => []
  | fuel + 1, s => if s = [] ∨ k = 0 then [] else s.take k :: chunksOfFuel k fuel (s.drop k)

/-- Splits a string into consecutive groups of exactly `k` characters
(the trailing group may be shorter if `k` does not divide the length;
`chunkString` only calls this on suffixes whose length `k` divides). -/
def chunksOf (k : Nat) (s : List Char) : List (List Char) :=
  chunksOfFuel k s.length s

/-- Modelled from the spec: `utils.ChunkString(value, chunkSize)` splits
`text` into fixed-width groups of `chunkSize` digits counted from the
most significant end, so the first group may be short (length
`len(text) mod chunkSize`, or the full width when the length is an exact
non-zero multiple) and every subsequent group has exactly `chunkSize`
digits (spec section 4.1). -/
def chunkString (s : List Char) (k : Nat) : List (List Char) :=
  if s.length % k = 0 then chunksOf k s
  else s.take (s.length % k) :: chunksOf k (s.drop (s.length % k))

/-- Decimal value of a digit string (the usual left fold, as performed by
`strconv.ParseUint(s, 10, 32)` before its range check). -/
def digitsToNat (s : List Char) : Nat :=
  s.foldl (fun acc c => acc * 10 + (c.toNat - 48)) 0

/-- Modelled from the spec: `utils.StringToUint32` converts a group's
digit string to an unsigned 32-bit integer and fails when the group is
not a digit string or does not fit a 32-bit unsigned integer
(spec sections 1 and 4.1). -/
def stringToUint32 (s : List Char) : Option Nat :=
  if s ≠ [] ∧ s.all Char.isDigit = true ∧ digitsToNat s < 2 ^ 32 then
    some (digitsToNat s)
  else none

/-- The conversion loop of `NewBigInt`: convert every chunk, failing as a
whole when any single conversion fails. -/
def convertChunks : List (List Char) → Option (List Nat)
  | [] => some []
  | c :: cs =>
    match stringToUint32 c, convertChunks cs with
    | some v, some vs => some (v :: vs)
    | _, _ => none

/-- `NewBigInt(value string) (*BigInt, error)`: validate against
`^[0-9]+$`, split into chunks of `chunkSize := 9`, convert each chunk to
a limb, and record `length = len(value)` and `chukSize = 9`. -/
def NewBigInt (value : List Char) : Except BigIntError BigInt :=
  if integerNumberMatch value then
    match convertChunks (chunkString value 9) with
    | some magnitude => .ok { magnitude := magnitude, length := value.length, chukSize := 9 }
    | none => .error .errConvertingChunkToInteger
  else .error .errInvalidIntegerNumber

/-- `func (b BigInt) Length() int`. -/
def BigInt.Length (b : BigInt) : Nat :=
  b.length

/-- Fuel-driven worker for `natToChars`; fuel `n + 1` always suffices
since `n` has at most `n + 1` decimal digits. -/
def natToCharsAux : Nat → Nat → List Char → List Char
  | 0, _, acc => acc
  | fuel + 1, n, acc =>
    if n < 10 then Char.ofNat (48 + n % 10) :: acc
    else natToCharsAux fuel (n / 10) (Char.ofNat (48 + n % 10) :: acc)

/-- Decimal rendering of one limb, as done by
`strconv.FormatUint(uint64(chunk), 10)`: plain decimal digits, no
padding, `0` renders as `"0"`. -/
def natToChars (n : Nat) : List Char :=
  natToCharsAux (n + 1) n []

/-- `func (b BigInt) String() string`: append `FormatUint` of every chunk
in order, with no padding of any kind. -/
def BigInt.String (b : BigInt) : List Char :=
  (b.magnitude.map natToChars).flatten

/-- Fuel-driven worker for `countDigits`. -/
def countDigitsAux : Nat → Nat → Nat
  | 0, _ => 0
  | fuel + 1, n => if n < 10 then 1 else 1 + countDigitsAux fuel (n / 10)

/-- Modelled from the spec: `utils.CountDigits(int64)` returns the number
of decimal digits of its argument (spec section 4.2: "the decimal digit
count of `sum`"); `0` has one digit. -/
def countDigits (n : Nat) : Nat :=
  countDigitsAux (n + 1) n

/-- One iteration of the addition loop of `Add` at a single limb
position: `sum := lhsChunk + rhsChunk` (wrapping `uint32` addition),
`if carry { sum++ }` (wrapping), then carry out exactly when
`utils.CountDigits(int64(sum)) > b.chukSize`, in which case `sum` is
reduced modulo `10 ^ b.chukSize` (`uint32(math.Pow10(b.chukSize))`). -/
def addStep (cs l r : Nat) (carryIn : Bool) : Nat × Bool :=
  let sum0 := (l + r) % 2 ^ 32
  let sum1 := if carryIn then (sum0 + 1) % 2 ^ 32 else sum0
  let carryOut := decide (countDigits sum1 > cs)
  let sum2 := if carryOut then sum1 % 10 ^ cs else sum1
  (sum2, carryOut)

/-- The addition loop of `Add`, written as structural recursion on
`lhs`.  Go iterates `index = len(lhs)-1, …, 0` pairing `lhs[index]` with
`rhs[index]` when `index < len(rhs)` (raw array index from the front)
and with `0` otherwise, threading the carry from the last index to the
first; here the element at relative position 0 of `lhs` is paired with
the element at relative position 0 of `rhs` (`headD 0` yields the Go
default `0` when `rhs` is exhausted) and the carry comes out of the
recursive call on the tails. -/
def addAux (cs : Nat) : List Nat → List Nat → List Nat × Bool
  | [], _ => ([], false)
  | l :: ls, rs =>
    let p := addAux cs ls rs.tail
    let q := addStep cs l (rs.headD 0) p.2
    (q.1 :: p.1, q.2)

/-- Body of `Add` after the operand swap: the single-chunk shortcut
`result.magnitude[0] = lhs[0] + rhs[0]` (wrapping `uint32` addition; Go
reads `rhs[0]` unconditionally, which is total for every value built by
`NewBigInt` since magnitudes are then non-empty — `headD 0` models it),
otherwise the carry loop followed by prepending a `1` limb when a final
carry remains.  The result struct literal sets only `magnitude`, so the
Go zero values `length = 0` and `chukSize = 0` are recorded. -/
def addBody (cs : Nat) (lhs rhs : List Nat) : BigInt :=
  if lhs.length = 1 then
    { magnitude := [(lhs.headD 0 + rhs.headD 0) % 2 ^ 32], length := 0, chukSize := 0 }
  else
    { magnitude :=
        if (addAux cs lhs rhs).2 then 1 :: (addAux cs lhs rhs).1 else (addAux cs lhs rhs).1,
      length := 0, chukSize := 0 }

/-- `func (b BigInt) Add(other *BigInt) *BigInt`: put the operand with
the larger `Length()` (digit count) on the left, then run `addBody`.
The carry check always uses the receiver's `b.chukSize`. -/
def BigInt.Add (b other : BigInt) : BigInt :=
  if b.length < other.length then addBody b.chukSize other.magnitude b.magnitude
  else addBody b.chukSize b.magnitude other.magnitude

/-- Modelled from the spec: the per-position computation of section 4.2
in ideal (unbounded) arithmetic — `sum = lhsLimb + rhsLimb + carryIn`
with no 32-bit wraparound.  Identical to `addStep` except that the
`% 2 ^ 32` reductions are absent; used to state that the real `addStep`
never overflows its `uint32` storage. -/
def addStepIdeal (cs l r : Nat) (carryIn : Bool) : Nat × Bool :=
  let sum1 := l + r + (if carryIn then 1 else 0)
  let carryOut := decide (countDigits sum1 > cs)
  let sum2 := if carryOut then sum1 % 10 ^ cs else sum1
  (sum2, carryOut)

/-- The addition loop built on `addStepIdeal` instead of `addStep`. -/
def addAuxIdeal (cs : Nat) : List Nat → List Nat → List Nat × Bool
  | [], _ => ([], false)
  | l :: ls, rs =>
    let p := addAuxIdeal cs ls rs.tail
    let q := addStepIdeal cs l (rs.headD 0) p.2
    (q.1 :: p.1, q.2)

/-- `addBody` with the ideal (non-wrapping) per-position arithmetic. -/
def addBodyIdeal (cs : Nat) (lhs rhs : List Nat) : BigInt :=
  if lhs.length = 1 then
    { magnitude := [lhs.headD 0 + rhs.headD 0], length := 0, chukSize := 0 }
  else
    { magnitude :=
        if (addAuxIdeal cs lhs rhs).2 then
          1 :: (addAuxIdeal cs lhs rhs).1
        else (addAuxIdeal cs lhs rhs).1,
      length := 0, chukSize := 0 }

/-- `Add` with the ideal (non-wrapping) per-position arithmetic. -/
def BigInt.AddIdeal (b other : BigInt) : BigInt :=
  if b.length < other.length then addBodyIdeal b.chukSize other.magnitude b.magnitude
  else addBodyIdeal b.chukSize b.magnitude other.magnitude

/-! Helper lemmas. -/

theorem chunksOfFuel_nil (k f : Nat) : chunksOfFuel k f [] = [] := by
  cases f <;> simp [chunksOfFuel]

theorem chunksOfFuel_length_congr (k : Nat) :
    ∀ f₁ f₂ (s t : List Char), s.length ≤ f₁ → t.length ≤ f₂ → s.length = t.length →
      (chunksOfFuel k f₁ s).length = (chunksOfFuel k f₂ t).length := by
  intro f₁
  induction f₁ with
  | zero =>
    intro f₂ s t hs ht hst
    have hs0 : s = [] := List.eq_nil_of_length_eq_zero (Nat.le_zero.mp hs)
    have ht0 : t = [] := List.eq_nil_of_length_eq_zero (by omega)
    subst hs0; subst ht0
    simp [chunksOfFuel_nil]
  | succ f ih =>
    intro f₂ s t hs ht hst
    cases f₂ with
    | zero =>
      have ht0 : t = [] := List.eq_nil_of_length_eq_zero (Nat.le_zero.mp ht)
      have hs0 : s = [] := List.eq_nil_of_length_eq_zero (by omega)
      subst hs0; subst ht0
      simp [chunksOfFuel_nil]
    | succ f₂ =>
      simp only [chunksOfFuel]
      by_cases hc : s = [] ∨ k = 0
      · have hc' : t = [] ∨ k = 0 := by
          rcases hc with h | h
          · exact Or.inl (List.eq_nil_of_length_eq_zero (by subst h; simpa using hst.symm))
          · exact Or.inr h
        rw [if_pos hc, if_pos hc']
      · have hc' : ¬(t = [] ∨ k = 0) := by
          rintro (h | h)
          · exact hc (Or.inl (List.eq_nil_of_length_eq_zero (by subst h; simpa using hst)))
          · exact hc (Or.inr h)
        rw [if_neg hc, if_neg hc']
        simp only [List.length_cons]
        have hk : 0 < k := by omega
        have hslen : 0 < s.length := List.length_pos.mpr (by tauto)
        refine congrArg Nat.succ (ih f₂ _ _ ?_ ?_ ?_) <;>
          simp only [List.length_drop] <;> omega

theorem chunkString_length_congr (k : Nat) (s t : List Char) (h : s.length = t.length) :
    (chunkString s k).length = (chunkString t k).length := by
  unfold chunkString chunksOf
  by_cases hr : s.length % k = 0
  · rw [if_pos hr, if_pos (by rw [← h]; exact hr)]
    exact chunksOfFuel_length_congr k _ _ s t le_rfl le_rfl h
  · rw [if_neg hr, if_neg (by rw [← h]; exact hr)]
    simp only [List.length_cons]
    exact congrArg Nat.succ
      (chunksOfFuel_length_congr k _ _ _ _ le_rfl le_rfl (by simp [h]))

theorem convertChunks_length :
    ∀ (l : List (List Char)) (vs : List Nat), convertChunks l = some vs → vs.length = l.length := by
  intro l
  induction l with
  | nil =>
    intro vs h
    simp only [convertChunks, Option.some.injEq] at h
    subst h; rfl
  | cons c cs ih =>
    intro vs h
    unfold convertChunks at h
    split at h
    · rename_i v vs' hv hvs
      cases h
      simpa using ih vs' hvs
    · cases h

theorem newBigInt_ok_inversion (s : List Char) (b : BigInt) (h : NewBigInt s = .ok b) :
    integerNumberMatch s = true ∧
      ∃ mag, convertChunks (chunkString s 9) = some mag ∧
        b = { magnitude := mag, length := s.length, chukSize := 9 } := by
  unfold NewBigInt at h
  split at h
  · rename_i hm
    split at h
    · rename_i mag hmag
      cases h
      exact ⟨hm, mag, hmag, rfl⟩
    · cases h
  · cases h

theorem addStep_comm (cs l r : Nat) (c : Bool) : addStep cs l r c = addStep cs r l c := by
  simp [addStep, Nat.add_comm l r]

theorem addAux_comm :
    ∀ (cs : Nat) (ls rs : List Nat), ls.length = rs.length → addAux cs ls rs = addAux cs rs ls := by
  intro cs ls
  induction ls with
  | nil =>
    intro rs h
    cases rs with
    | nil => rfl
    | cons r rs' => simp at h
  | cons l ls ih =>
    intro rs h
    cases rs with
    | nil => simp at h
    | cons r rs' =>
      simp only [addAux, List.tail_cons, List.headD_cons]
      rw [ih rs' (by simpa using h), addStep_comm]

theorem addBody_comm (cs : Nat) (ls rs : List Nat) (h : ls.length = rs.length) :
    addBody cs ls rs = addBody cs rs ls := by
  unfold addBody
  by_cases h1 : rs.length = 1
  · rw [if_pos (by omega), if_pos h1]
    simp [Nat.add_comm]
  · rw [if_neg (by omega), if_neg h1, addAux_comm cs ls rs h]

theorem getD_le_of_forall_le {l : List Nat} {M : Nat} (h : ∀ x ∈ l, x ≤ M) :
    ∀ i, l.getD i 0 ≤ M := by
  induction l with
  | nil => intro i; simp [List.getD]
  | cons x l ih =>
    intro i
    cases i with
    | zero => simpa using h x (by simp)
    | succ i => simpa using ih (fun y hy => h y (by simp [hy])) i

theorem headD_le_of_forall_le {l : List Nat} {M : Nat} (h : ∀ x ∈ l, x ≤ M) :
    l.headD 0 ≤ M := by
  cases l with
  | nil => simp
  | cons x l => exact h x (by simp)

theorem addStep_eq_ideal (cs l r : Nat) (c : Bool)
    (hl : l ≤ 999999999) (hr : r ≤ 999999999) :
    addStep cs l r c = addStepIdeal cs l r c := by
  have h0 : (l + r) % 4294967296 = l + r := Nat.mod_eq_of_lt (by omega)
  have h1 : (l + r + 1) % 4294967296 = l + r + 1 := Nat.mod_eq_of_lt (by omega)
  cases c <;> simp [addStep, addStepIdeal, h0, h1]

theorem addAux_eq_ideal :
    ∀ (cs : Nat) (ls rs : List Nat), (∀ x ∈ ls, x ≤ 999999999) → (∀ x ∈ rs, x ≤ 999999999) →
      addAux cs ls rs = addAuxIdeal cs ls rs := by
  intro cs ls
  induction ls with
  | nil => intro rs _ _; rfl
  | cons l ls ih =>
    intro rs hl hr
    have htail : ∀ x ∈ rs.tail, x ≤ 999999999 :=
      fun x hx => hr x (List.mem_of_mem_tail hx)
    have hhead : rs.headD 0 ≤ 999999999 := headD_le_of_forall_le hr
    simp only [addAux, addAuxIdeal]
    rw [ih rs.tail (fun x hx => hl x (by simp [hx])) htail,
      addStep_eq_ideal cs l (rs.headD 0) _ (hl l (by simp)) hhead]

theorem addBody_eq_ideal (cs : Nat) (ls rs : List Nat)
    (hl : ∀ x ∈ ls, x ≤ 999999999) (hr : ∀ x ∈ rs, x ≤ 999999999) :
    addBody cs ls rs = addBodyIdeal cs ls rs := by
  unfold addBody addBodyIdeal
  split
  · have h1 := headD_le_of_forall_le hl
    have h2 := headD_le_of_forall_le hr
    have h32 : (2 : Nat) ^ 32 = 4294967296 := by norm_num
    rw [Nat.mod_eq_of_lt (by omega)]
  · rw [addAux_eq_ideal cs ls rs hl hr]

theorem char_digit_le_nine {c : Char} (h : c.isDigit = true) : c.toNat - 48 ≤ 9 := by
  simp only [Char.isDigit, Bool.and_eq_true, decide_eq_true_eq] at h
  have h3 : c.toNat ≤ 57 := h.2
  omega

theorem digits_foldl_lt :
    ∀ (s : List Char) (acc : Nat), s.all Char.isDigit = true →
      s.foldl (fun a c => a * 10 + (c.toNat - 48)) acc < (acc + 1) * 10 ^ s.length := by
  intro s
  induction s with
  | nil => intro acc _; simp
  | cons c s ih =>
    intro acc hall
    have hd : c.isDigit = true ∧ s.all Char.isDigit = true := by simpa using hall
    have hc9 : c.toNat - 48 ≤ 9 := char_digit_le_nine hd.1
    calc (c :: s).foldl (fun a c => a * 10 + (c.toNat - 48)) acc
        = s.foldl (fun a c => a * 10 + (c.toNat - 48)) (acc * 10 + (c.toNat - 48)) := rfl
      _ < (acc * 10 + (c.toNat - 48) + 1) * 10 ^ s.length := ih _ hd.2
      _ ≤ ((acc + 1) * 10) * 10 ^ s.length :=
          Nat.mul_le_mul_right _ (by omega)
      _ = (acc + 1) * 10 ^ (c :: s).length := by
          simp [List.length_cons, Nat.pow_succ]; ring

theorem digitsToNat_lt_of_short {s : List Char} (hall : s.all Char.isDigit = true)
    (hlen : s.length ≤ 9) : digitsToNat s < 2 ^ 32 := by
  have h1 : digitsToNat s < (0 + 1) * 10 ^ s.length := digits_foldl_lt s 0 hall
  have h2 : (10 : Nat) ^ s.length ≤ 10 ^ 9 := Nat.pow_le_pow_right (by omega) hlen
  have h3 : (10 : Nat) ^ 9 < 2 ^ 32 := by norm_num
  omega

theorem chunksOfFuel_chunk_props {k : Nat} (hk : 0 < k) :
    ∀ (fuel : Nat) (s : List Char), s.length ≤ fuel → s.all Char.isDigit = true →
      ∀ c ∈ chunksOfFuel k fuel s, c ≠ [] ∧ c.length ≤ k ∧ c.all Char.isDigit = true := by
  intro fuel
  induction fuel with
  | zero => intro s hs _ c hc; simp [chunksOfFuel] at hc
  | succ fuel ih =>
    intro s hs hall c hc
    simp only [chunksOfFuel] at hc
    by_cases hnil : s = [] ∨ k = 0
    · rw [if_pos hnil] at hc; simp at hc
    · rw [if_neg hnil] at hc
      have hsne : s ≠ [] := fun h => hnil (Or.inl h)
      rcases List.mem_cons.mp hc with hhead | htail
      · subst hhead
        refine ⟨?_, ?_, ?_⟩
        · simp [List.take_eq_nil_iff, hsne]
          omega
        · simp [List.length_take]
        · exact List.all_eq_true.mpr
            (fun x hx => List.all_eq_true.mp hall x (List.take_subset k s hx))
      · have hslen : 0 < s.length := List.length_pos.mpr hsne
        refine ih (s.drop k) ?_ ?_ c htail
        · simp only [List.length_drop]; omega
        · exact List.all_eq_true.mpr
            (fun x hx => List.all_eq_true.mp hall x (List.drop_subset k s hx))

theorem chunkString_chunk_props {s : List Char} (hne : s ≠ [])
    (hall : s.all Char.isDigit = true) :
    ∀ c ∈ chunkString s 9, c ≠ [] ∧ c.length ≤ 9 ∧ c.all Char.isDigit = true := by
  intro c hc
  unfold chunkString chunksOf at hc
  by_cases hr : s.length % 9 = 0
  · rw [if_pos hr] at hc
    exact chunksOfFuel_chunk_props (by omega) s.length s le_rfl hall c hc
  · rw [if_neg hr] at hc
    have hmod : s.length % 9 < 9 := Nat.mod_lt _ (by omega)
    rcases List.mem_cons.mp hc with hhead | htail
    · subst hhead
      refine ⟨?_, ?_, ?_⟩
      · simp [List.take_eq_nil_iff, hne]
        omega
      · simp [List.length_take]
        omega
      · exact List.all_eq_true.mpr
          (fun x hx => List.all_eq_true.mp hall x (List.take_subset _ s hx))
    · refine chunksOfFuel_chunk_props (by omega) _ _ le_rfl ?_ c htail
      exact List.all_eq_true.mpr
        (fun x hx => List.all_eq_true.mp hall x (List.drop_subset _ s hx))

theorem stringToUint32_some {c : List Char} (hne : c ≠ []) (hall : c.all Char.isDigit = true)
    (hlen : c.length ≤ 9) : stringToUint32 c = some (digitsToNat c) := by
  unfold stringToUint32
  rw [if_pos ⟨hne, hall, digitsToNat_lt_of_short hall hlen⟩]

theorem convertChunks_some_of_all :
    ∀ (l : List (List Char)), (∀ c ∈ l, ∃ v, stringToUint32 c = some v) →
      ∃ vs, convertChunks l = some vs := by
  intro l
  induction l with
  | nil => intro _; exact ⟨[], rfl⟩
  | cons c cs ih =>
    intro h
    obtain ⟨v, hv⟩ := h c (by simp)
    obtain ⟨vs, hvs⟩ := ih (fun d hd => h d (by simp [hd]))
    exact ⟨v :: vs, by simp [convertChunks, hv, hvs]⟩

/-! Claim theorems. -/

/-- Claim C1: the claim requires `Add` to pair limbs by significance
(from the least-significant end) so that
`add(parse("123456789000000001"), parse("999"))` renders
`"123456789000001000"`.  The code instead pairs `rhs[index]` by the raw
array index of the longer operand, aligning the shorter operand against
the most-significant end: at this input it adds `999` into the leading
limb and renders `"1234577881"`, not `"123456789000001000"`. -/
theorem add_pairs_by_raw_index_not_significance :
    (NewBigInt "123456789000000001".data).bind
      (fun a => (NewBigInt "999".data).map fun b => (a.Add b).String) =
      .ok "1234577881".data ∧
    "1234577881".data ≠ "123456789000001000".data :=
  ⟨rfl, by decide⟩

/-- Claim C2: the claim requires `render(parse(s)) = s` for every digit
string `s`, with every non-leading limb left-padded with zeros to 9
characters.  `String` concatenates `strconv.FormatUint` of each limb
with no padding, so the input `"1000000001"` (limbs `[1, 1]`) renders
as `"11"` and the round trip fails. -/
theorem string_does_not_pad_roundtrip_fails :
    (NewBigInt "1000000001".data).map (fun b => b.String) = .ok "11".data ∧
    "11".data ≠ "1000000001".data :=
  ⟨rfl, by decide⟩

/-- Claim C3: the claim requires the carry check (reduce modulo `10^9`,
carry out, and possibly prepend a leading `1`) at every position, also
when both operands have a single limb, so that every result limb has at
most 9 decimal digits.  The single-chunk shortcut of `Add` stores
`lhs[0] + rhs[0]` with no carry check at all:
`add(parse("999999999"), parse("1"))` yields the single 10-digit limb
`1000000000` and no new leading limb. -/
theorem single_chunk_add_skips_carry :
    (NewBigInt "999999999".data).bind
      (fun a => (NewBigInt "1".data).map fun b => (a.Add b).magnitude) =
      .ok [1000000000] ∧
    countDigits 1000000000 = 10 :=
  ⟨rfl, rfl⟩

/-- Claim C5: the claim requires
`render(add(parse("0"), parse(s))) = s` for every valid
non-leading-zero `s`.  For `s = "1000000001"` the sum has limbs
`[1, 1]` and the unpadded `String` renders `"11"`, so `parse("0")` is
not a left identity up to rendering. -/
theorem add_zero_identity_fails :
    (NewBigInt "0".data).bind
      (fun z => (NewBigInt "1000000001".data).map fun b => (z.Add b).String) =
      .ok "11".data ∧
    "11".data ≠ "1000000001".data :=
  ⟨rfl, by decide⟩

/-- Claim C6: the claim requires `Length` of `add(a,b)` to equal the
length of the rendered form of `add(a,b)`.  `Add` never sets the
`length` field of its result (the struct literal leaves it at the Go
zero value `0`): for `a = b = parse("1")` the result renders as `"2"`
(length 1) while `Length()` returns `0`. -/
theorem add_result_length_is_zero_not_recomputed :
    (NewBigInt "1".data).map (fun a => ((a.Add a).Length, (a.Add a).String.length)) =
      .ok (0, 1) ∧
    (0 : Nat) ≠ 1 :=
  ⟨rfl, by decide⟩

/-- Claim C4: for every two values parsed from valid digit strings the
rendered sum does not depend on the order of the operands:
`render(add(a,b)) = render(add(b,a))`.  The operand swap in `Add`
normalises by digit `Length()`, both parsed operands carry
`chukSize = 9`, and equal digit counts force equal limb counts, under
which the carry loop is symmetric in its two magnitudes. -/
theorem add_render_comm (s t : List Char) (a b : BigInt)
    (ha : NewBigInt s = .ok a) (hb : NewBigInt t = .ok b) :
    (a.Add b).String = (b.Add a).String := by
  obtain ⟨hma, mag_a, hconva, hba⟩ := newBigInt_ok_inversion s a ha
  obtain ⟨hmb, mag_b, hconvb, hbb⟩ := newBigInt_ok_inversion t b hb
  have hacs : a.chukSize = 9 := by rw [hba]
  have hbcs : b.chukSize = 9 := by rw [hbb]
  suffices h : a.Add b = b.Add a by rw [h]
  unfold BigInt.Add
  rcases Nat.lt_trichotomy a.length b.length with hlt | heq | hgt
  · rw [if_pos hlt, if_neg (by omega), hacs, hbcs]
  · rw [if_neg (by omega), if_neg (by omega), hacs, hbcs]
    apply addBody_comm
    have h1 : a.magnitude.length = (chunkString s 9).length := by
      rw [hba]; exact convertChunks_length _ _ hconva
    have h2 : b.magnitude.length = (chunkString t 9).length := by
      rw [hbb]; exact convertChunks_length _ _ hconvb
    have hlen : s.length = t.length := by
      have := congrArg BigInt.length hba
      have := congrArg BigInt.length hbb
      simp_all
    rw [h1, h2]
    exact chunkString_length_congr 9 s t hlen
  · rw [if_neg (by omega), if_pos hgt, hacs, hbcs]

/-- Witness for C4 at `s = "12"`, `t = "345"`. -/
theorem add_render_comm_witness :
    (BigInt.Add ⟨[12], 2, 9⟩ ⟨[345], 3, 9⟩).String =
      (BigInt.Add ⟨[345], 3, 9⟩ ⟨[12], 2, 9⟩).String :=
  add_render_comm "12".data "345".data ⟨[12], 2, 9⟩ ⟨[345], 3, 9⟩ rfl rfl

/-- Claim C7: `NewBigInt` returns an error exactly when the input is
empty or contains a character outside `'0'`–`'9'` (the `^[0-9]+$`
validation), and the `ErrConvertingChunkToInteger` branch is
unreachable: with chunk size 9 every chunk of a validated input is a
non-empty digit string of at most 9 characters, whose value is below
`10^9 < 2^32`. -/
theorem parse_error_characterization (s : List Char) :
    ((∃ e, NewBigInt s = .error e) ↔ s = [] ∨ ∃ c ∈ s, c.isDigit = false) ∧
      NewBigInt s ≠ .error .errConvertingChunkToInteger := by
  by_cases hm : integerNumberMatch s = true
  · have hne : s ≠ [] := by
      intro h; subst h; simp [integerNumberMatch] at hm
    have hall : s.all Char.isDigit = true := by
      have hm' := hm
      unfold integerNumberMatch at hm'
      simp only [Bool.and_eq_true] at hm'
      exact hm'.2
    obtain ⟨mag, hmag⟩ := convertChunks_some_of_all (chunkString s 9) (by
      intro c hc
      obtain ⟨h1, h2, h3⟩ := chunkString_chunk_props hne hall c hc
      exact ⟨digitsToNat c, stringToUint32_some h1 h3 h2⟩)
    have hok : NewBigInt s = .ok ⟨mag, s.length, 9⟩ := by
      unfold NewBigInt
      rw [if_pos hm, hmag]
    refine ⟨⟨?_, ?_⟩, ?_⟩
    · rintro ⟨e, he⟩
      rw [hok] at he
      cases he
    · rintro (h | ⟨c, hc, hd⟩)
      · exact absurd h hne
      · have := List.all_eq_true.mp hall c hc
        rw [hd] at this
        cases this
    · rw [hok]
      intro h
      cases h
  · have herr : NewBigInt s = .error .errInvalidIntegerNumber := by
      unfold NewBigInt
      rw [if_neg hm]
    have hbad : s = [] ∨ ∃ c ∈ s, c.isDigit = false := by
      unfold integerNumberMatch at hm
      simp only [Bool.and_eq_true, Bool.not_eq_true', List.isEmpty_iff,
        List.all_eq_true, not_and, not_forall] at hm
      by_cases hs : s = []
      · exact Or.inl hs
      · obtain ⟨c, hc, hd⟩ := hm (by simpa [List.isEmpty_iff] using hs)
        exact Or.inr ⟨c, hc, by simpa using hd⟩
    refine ⟨⟨fun _ => hbad, fun _ => ⟨_, herr⟩⟩, ?_⟩
    rw [herr]
    intro h
    simp at h

/-- Claim C8: the digit count recorded at parse time equals the length
of the input string: `NewBigInt` stores `length = len(value)`, which is
what `Length()` reports. -/
theorem parse_records_input_length (s : List Char) (b : BigInt) (h : NewBigInt s = .ok b) :
    b.Length = s.length := by
  obtain ⟨-, mag, -, hb⟩ := newBigInt_ok_inversion s b h
  rw [hb]; rfl

/-- Witness for C8 at `s = "123"`. -/
theorem parse_records_input_length_witness :
    BigInt.Length ⟨[123], 3, 9⟩ = ("123".data).length :=
  parse_records_input_length "123".data ⟨[123], 3, 9⟩ rfl

/-- Claim C9: for operands whose limbs are all at most `999999999`,
every per-position sum computed inside `Add` — a limb of one operand
plus the raw-index-matched limb of the other (or the default `0`) plus
a carry-in of at most `1` — is at most `1999999999`, and consequently
the `uint32` limb arithmetic of `Add` never wraps: `Add` agrees with
`AddIdeal`, the same algorithm in unbounded arithmetic. -/
theorem add_no_uint32_overflow (a b : BigInt) (i : Nat) (c : Bool)
    (h1 : ∀ x ∈ a.magnitude, x ≤ 999999999) (h2 : ∀ x ∈ b.magnitude, x ≤ 999999999) :
    a.magnitude.getD i 0 + b.magnitude.getD i 0 + (if c then 1 else 0) ≤ 1999999999 ∧
      a.Add b = a.AddIdeal b := by
  constructor
  · have ha := getD_le_of_forall_le h1 i
    have hb := getD_le_of_forall_le h2 i
    split <;> omega
  · unfold BigInt.Add BigInt.AddIdeal
    split
    · exact addBody_eq_ideal _ _ _ h2 h1
    · exact addBody_eq_ideal _ _ _ h1 h2

/-- Witness for C9 at the operands with magnitudes `[999999999]` and
`[1]`, position `0` and carry-in `1`. -/
theorem add_no_uint32_overflow_witness :
    (BigInt.mk [999999999] 9 9).magnitude.getD 0 0 +
        (BigInt.mk [1] 1 9).magnitude.getD 0 0 + (if true then 1 else 0) ≤ 1999999999 ∧
      BigInt.Add ⟨[999999999], 9, 9⟩ ⟨[1], 1, 9⟩ =
        BigInt.AddIdeal ⟨[999999999], 9, 9⟩ ⟨[1], 1, 9⟩ :=
  add_no_uint32_overflow ⟨[999999999], 9, 9⟩ ⟨[1], 1, 9⟩ 0 true (by decide) (by decide)

/-- Claim C10: every value returned by `Add` is a fresh `BigInt` whose
`length` field and `chukSize` field are both `0` (the struct literal in
`Add` sets only `magnitude`), so `Length()` of any `Add` result is `0`;
a further `Add` on such a receiver therefore compares digit counts
against `chukSize = 0` rather than `9`. -/
theorem add_result_fields_zero (a b : BigInt) :
    (a.Add b).Length = 0 ∧ (a.Add b).length = 0 ∧ (a.Add b).chukSize = 0 := by
  unfold BigInt.Add addBody BigInt.Length
  split <;> split <;> simp
